import Mathlib

/-!
Verification of `src/helpers.py` of the TADW repository.

The Python code is embedded shallowly:

* floating-point values are modelled by exact rationals (`ℚ`);
* a Python function that can raise is modelled as a function into `Option`,
  with `none` standing for the raised exception;
* `networkx` graphs are modelled by `NXGraph`: the list of node labels in
  insertion order (the iteration order of `graph.nodes()` in Python ≥ 3.7)
  together with the symmetric boolean adjacency predicate on labels.

Node labels are natural numbers, matching the integer node IDs of the data
model (negative labels would make `scipy` reject the COO indices; the spec's
graphs are zero-indexed).
-/

namespace TADW

/-- A `networkx.Graph` as `normalize_adjacency` consumes it: `nodes` is the
label list in insertion order (`graph.nodes()`), `adj` the adjacency
predicate on labels.  Structural well-formedness facts (distinct labels,
symmetry of `adj` on the node set) are taken as hypotheses where needed. -/
structure NXGraph where
  nodes : List ℕ
  adj : ℕ → ℕ → Bool

/-- Label of the node at position `k` of the iteration order. -/
def nodeAt (G : NXGraph) (k : ℕ) : ℕ := G.nodes.getD k 0

/-- `graph.degree(v)` of networkx: the number of incident edge endpoints,
counting a self-loop twice (once as a neighbour occurrence, once extra). -/
def degree (G : NXGraph) (v : ℕ) : ℕ :=
  (G.nodes.filter (fun u => G.adj v u)).length + (if G.adj v v then 1 else 0)

/-- The raw COO adjacency built in `normalize_adjacency` (lines 80-85):
`graph.edges()` yields every undirected edge exactly once; for node lists
without duplicates this is the set of position pairs `(p₁, p₂)` with
`p₁ ≤ p₂` and the corresponding labels adjacent.  Each edge `e` contributes
value `1.0` at `(e₁, e₂)` and at `(e₂, e₁)` (the two index-list halves), and
`scipy` sums duplicate COO entries — so a self-loop contributes `2` at its
diagonal cell. -/
def rawAdj (G : NXGraph) (a b : ℕ) : ℚ :=
  ∑ p ∈ Finset.range G.nodes.length ×ˢ Finset.range G.nodes.length,
    if p.1 ≤ p.2 ∧ G.adj (nodeAt G p.1) (nodeAt G p.2) = true then
      ((if (nodeAt G p.1, nodeAt G p.2) = (a, b) then (1 : ℚ) else 0) +
        (if (nodeAt G p.2, nodeAt G p.1) = (a, b) then (1 : ℚ) else 0))
    else 0

/-- The raw adjacency as a square matrix of size `len(graph.nodes())`
(`shape=(len(ind), len(ind))` in the source). -/
def rawM (G : NXGraph) : Matrix (Fin G.nodes.length) (Fin G.nodes.length) ℚ :=
  Matrix.of fun a b => rawAdj G a.val b.val

/-- `normalize_adjacency` (lines 72-88).  The list comprehension
`[1.0/graph.degree(node) for node in graph.nodes()]` raises
`ZeroDivisionError` when some node has degree `0`; `scipy` raises when a COO
index reaches the shape bound.  Both exceptions are modelled by `none`.  The
degree list is paired with the positional indices `ind = range(n)`, so the
diagonal matrix `degs` carries `1/degree` of the `k`-th node *in iteration
order* at cell `(k, k)`, while the adjacency COO is indexed by node *labels*.
The result is the product `A.dot(degs)`. -/
def normalize_adjacency (G : NXGraph) :
    Option (Matrix (Fin G.nodes.length) (Fin G.nodes.length) ℚ) :=
  if (∀ v ∈ G.nodes, degree G v ≠ 0) ∧ (∀ v ∈ G.nodes, v < G.nodes.length) then
    some (rawM G *
      Matrix.diagonal (fun k : Fin G.nodes.length => ((degree G (nodeAt G k.val) : ℚ))⁻¹))
  else none

/-- Appending a node to the insertion-order list, as `networkx` `add_edge`
does: a label already present is not added again. -/
def insertNode (l : List ℕ) (x : ℕ) : List ℕ := if x ∈ l then l else l ++ [x]

/-- Node insertion order produced by `nx.from_edgelist`: each edge inserts
its two endpoints in turn. -/
def nxNodesFrom (E : List (ℕ × ℕ)) : List ℕ :=
  E.foldl (fun acc e => insertNode (insertNode acc e.1) e.2) []

/-- `nx.from_edgelist` (line 98): an undirected simple graph; duplicate rows
and reversed duplicates collapse into one undirected edge. -/
def fromEdgelist (E : List (ℕ × ℕ)) : NXGraph :=
  ⟨nxNodesFrom E, fun a b => decide ((a, b) ∈ E ∨ (b, a) ∈ E)⟩

/-- State of the accumulation loop of `read_graph` (lines 101-104) after `t`
iterations: the pair `(powered_A, out_A)`, both initialised to `A`, with
`powered_A := powered_A.dot(A)` and `out_A := out_A + powered_A` per step. -/
def targetLoop {n : ℕ} (A : Matrix (Fin n) (Fin n) ℚ) :
    ℕ → Matrix (Fin n) (Fin n) ℚ × Matrix (Fin n) (Fin n) ℚ
  | 0 => (A, A)
  | t + 1 =>
    let s := targetLoop A t
    (s.1 * A, s.2 + s.1 * A)

/-- The target-matrix computation of `read_graph` (lines 100-106) applied to
an already-normalized adjacency `A`: `order - 1` loop iterations when
`order > 1`, otherwise `out_A = A` (the `else` branch, taken for every
`order ≤ 1`). -/
def read_graph_target {n : ℕ} (A : Matrix (Fin n) (Fin n) ℚ) (order : ℤ) :
    Matrix (Fin n) (Fin n) ℚ :=
  if 1 < order then (targetLoop A (order - 1).toNat).2 else A

/-- `read_graph` (lines 90-108): parse the edge list, normalize, accumulate
powers.  `none` models the exception propagated from `normalize_adjacency`. -/
def read_graph (E : List (ℕ × ℕ)) (order : ℤ) :
    Option (Matrix (Fin (nxNodesFrom E).length) (Fin (nxNodesFrom E).length) ℚ) :=
  (normalize_adjacency (fromEdgelist E)).map (fun A => read_graph_target A order)

/-! ### Python `int(...)` on strings -/

/-- A maximal digit run as accepted by Python's `int` literal grammar:
digits with single underscores strictly between digits
(`"12"`, `"1_2"` are accepted; `""`, `"_1"`, `"1_"`, `"1__2"` are not). -/
def pyDigitRun : List Char → ℕ → Option ℕ
  | [], acc => some acc
  | '_' :: c :: cs, acc =>
    if c.isDigit then pyDigitRun cs (acc * 10 + (c.toNat - 48)) else none
  | ['_'], _ => none
  | c :: cs, acc =>
    if c.isDigit then pyDigitRun cs (acc * 10 + (c.toNat - 48)) else none

/-- A non-empty digit run starting with a digit. -/
def pyDigits : List Char → Option ℕ
  | [] => none
  | c :: cs => if c.isDigit then pyDigitRun cs (c.toNat - 48) else none

/-- Python `int(s)` for a string `s`: surrounding whitespace is stripped, an
optional single sign precedes a decimal digit run.  `none` models the
`ValueError` Python raises for any other string.  (Python additionally
accepts non-ASCII decimal digits; the repository's data uses ASCII.) -/
def pyInt (s : String) : Option ℤ :=
  let cs := (s.toList.dropWhile Char.isWhitespace)
  let cs := (cs.reverse.dropWhile Char.isWhitespace).reverse
  match cs with
  | '+' :: rest => (pyDigits rest).map (fun v => (v : ℤ))
  | '-' :: rest => (pyDigits rest).map (fun v => -(v : ℤ))
  | rest => (pyDigits rest).map (fun v => (v : ℤ))

/-! ### Feature loaders -/

/-- A JSON value found in a feature list: an integer, a float, or a string.
Only a string that is not an integer literal makes the program raise
(`int(fet)`, line 132); floats and integer-literal strings go through. -/
inductive FVal where
  | fint : ℤ → FVal
  | ffloat : ℚ → FVal
  | fstr : String → FVal
deriving DecidableEq

/-- Whether a feature value is a JSON integer. -/
def FVal.isInt : FVal → Bool
  | .fint _ => true
  | .ffloat _ => false
  | .fstr _ => false

/-- Python `int(x)` on a float truncates toward zero
(`int(1.5) = 1`, `int(-1.5) = -1`). -/
def pyTrunc (q : ℚ) : ℤ := if 0 ≤ q then ⌊q⌋ else ⌈q⌉

/-- Python `int(fet)` (line 132) on a JSON value: the identity on integers,
truncation toward zero on floats, string parsing on strings (`none` models
the `ValueError` on a string that is not an integer literal — the only JSON
value `int()` rejects).  `numpy`'s unsafe cast of the raw COO index array
(line 135) produces the same integer in every non-raising case: C truncation
for floats, numeric parsing for strings. -/
def FVal.pyToInt : FVal → Option ℤ
  | .fint z => some z
  | .ffloat q => some (pyTrunc q)
  | .fstr s => pyInt s

/-- The integer `int(fet)` produces (meaningful when `int()` succeeds). -/
def FVal.toInt (v : FVal) : ℤ := v.pyToInt.getD 0

/-- Python `max` of a non-empty integer list. -/
def listMax (l : List ℤ) : ℤ := l.foldl max (l.headD 0)

/-- The parsed integer of a key (meaningful only when `pyInt` succeeds). -/
def keyInt (s : String) : ℤ := (pyInt s).getD 0

/-- The flattened COO index pairs of `read_sparse_features` (lines 127-128):
`index_1` (feature index) and `index_2` (node id, `int(k)`) zipped, in
mapping order. -/
def sparsePairs (m : List (String × List FVal)) : List (ℤ × ℤ) :=
  m.flatMap (fun kv => kv.2.map (fun v => (v.toInt, keyInt kv.1)))

/-- The sparse feature matrix of `read_sparse_features`: the shape
`(feature_count, node_count)` (line 136) and the entry function of the COO
matrix with all values `1.0`, duplicates summed by `scipy`. -/
structure SparseFeat where
  feature_count : ℤ
  node_count : ℤ
  entry : ℤ → ℤ → ℚ

/-- `read_sparse_features` (lines 120-138).  The JSON mapping is modelled as
the key/value list of the decoded dict (keys distinct as strings).  `none`
models the exceptions: `int(k)` (lines 128/130) raising `ValueError` on a
non-integer key, `int(fet)` (line 132) raising on a string value that is not
an integer literal, `scipy` rejecting a negative COO index, and `max(...)`
of an empty sequence (line 131/133) raising on an empty mapping.  A float
feature value does *not* raise: `int(fet)` truncates it toward zero and
`numpy`'s unsafe cast in the COO constructor truncates the raw index the
same way, so the effective feature index is `pyToInt` in every successful
case.  On success, `node_count = max(nodes) + 1`,
`feature_count = max(max(fet + [0]) per node) + 1`, and the entry at
`(f, c)` is the summed multiplicity of the COO pair `(f, c)`. -/
def read_sparse_features (m : List (String × List FVal)) : Option SparseFeat :=
  if m ≠ [] ∧ (∀ kv ∈ m, ∃ z, pyInt kv.1 = some z ∧ 0 ≤ z) ∧
      (∀ kv ∈ m, ∀ v ∈ kv.2, ∃ z, v.pyToInt = some z ∧ 0 ≤ z) then
    some
      { feature_count := listMax (m.map (fun kv => listMax (kv.2.map FVal.toInt ++ [0]))) + 1
        node_count := listMax (m.map (fun kv => keyInt kv.1)) + 1
        entry := fun f c => ((sparsePairs m).count (f, c) : ℚ) }
  else none

/-- `numpy`'s `.transpose()` of a rectangular array given as a row list:
row `f` of the result collects entry `f` of every input row. -/
def npTranspose (t : List (List ℚ)) : List (List ℚ) :=
  (List.range (t.headD []).length).map (fun f => t.map (fun row => row.getD f 0))

/-- `read_features` (lines 110-118): the table (as decoded by `pd.read_csv`,
header row already consumed) with its first column dropped, transposed. -/
def read_features (t : List (List ℚ)) : List (List ℚ) :=
  npTranspose (t.map (fun row => row.drop 1))

/-! ### Command-line defaults -/

/-- The configuration record of `parameter_parser` (lines 12-70). -/
structure TadwArgs where
  edge_path : String
  feature_path : String
  output_path : String
  dimensions : ℤ
  order : ℤ
  iterations : ℤ
  lambd : ℚ
  alpha : ℚ
  features : String
  lower_control : ℚ

/-- The result of `parameter_parser()` when no command-line options are
supplied: every argument takes its declared default.  No argument is
validated (in particular `--order` is only constrained to be an `int`). -/
def parameter_parser_defaults : TadwArgs :=
  { edge_path := "./input/chameleon_edges.csv"
    feature_path := "./input/chameleon_features.json"
    output_path := "./output/chameleon_tadw.csv"
    dimensions := 32
    order := 2
    iterations := 200
    lambd := 1000
    alpha := (10 : ℚ) ^ (-6 : ℤ)
    features := "sparse"
    lower_control := (10 : ℚ) ^ (-15 : ℤ) }

/-! ## The target-matrix power series -/

/-- After `t` iterations the loop of `read_graph` carries
`powered_A = A^(t+1)` and `out_A = A¹ + … + A^(t+1)`. -/
theorem targetLoop_spec {n : ℕ} (A : Matrix (Fin n) (Fin n) ℚ) (t : ℕ) :
    targetLoop A t = (A ^ (t + 1), ∑ i ∈ Finset.range (t + 1), A ^ (i + 1)) := by
  induction t with
  | zero => simp [targetLoop]
  | succ t ih =>
    rw [targetLoop, ih]
    simp [Finset.sum_range_succ, pow_succ]

/-! ## Lemmas about the raw adjacency matrix -/

theorem nodeAt_mem (G : NXGraph) {i : ℕ} (hi : i < G.nodes.length) :
    nodeAt G i ∈ G.nodes := by
  rw [nodeAt, List.getD_eq_getElem G.nodes 0 hi]
  exact List.getElem_mem hi

theorem nodeAt_inj (G : NXGraph) (hnodup : G.nodes.Nodup) {i j : ℕ}
    (hi : i < G.nodes.length) (hj : j < G.nodes.length)
    (h : nodeAt G i = nodeAt G j) : i = j := by
  have hinj := List.nodup_iff_injective_getElem.mp hnodup
  have h2 : (⟨i, hi⟩ : Fin G.nodes.length) = ⟨j, hj⟩ := by
    apply hinj
    rw [nodeAt, nodeAt, List.getD_eq_getElem G.nodes 0 hi,
      List.getD_eq_getElem G.nodes 0 hj] at h
    exact h
  simpa using h2

theorem indexOf_nodeAt (G : NXGraph) {a : ℕ} (ha : a ∈ G.nodes) :
    List.indexOf a G.nodes < G.nodes.length ∧ nodeAt G (List.indexOf a G.nodes) = a := by
  have h1 := List.indexOf_lt_length.mpr ha
  exact ⟨h1, by rw [nodeAt, List.getD_eq_getElem G.nodes 0 h1]; exact List.getElem_indexOf h1⟩

/-- A raw-adjacency cell of a label outside the node set is `0`. -/
theorem rawAdj_zero (G : NXGraph) {a b : ℕ} (h : a ∉ G.nodes ∨ b ∉ G.nodes) :
    rawAdj G a b = 0 := by
  rw [rawAdj]
  apply Finset.sum_eq_zero
  rintro ⟨i, j⟩ hp
  simp only [Finset.mem_product, Finset.mem_range] at hp
  obtain ⟨hi, hj⟩ := hp
  by_cases hcond : i ≤ j ∧ G.adj (nodeAt G i) (nodeAt G j) = true
  · rw [if_pos hcond]
    have z1 : (if (nodeAt G i, nodeAt G j) = (a, b) then (1 : ℚ) else 0) = 0 := by
      rw [if_neg]
      intro hEq
      rw [Prod.mk.injEq] at hEq
      rcases h with h | h
      · exact h (hEq.1 ▸ nodeAt_mem G hi)
      · exact h (hEq.2 ▸ nodeAt_mem G hj)
    have z2 : (if (nodeAt G j, nodeAt G i) = (a, b) then (1 : ℚ) else 0) = 0 := by
      rw [if_neg]
      intro hEq
      rw [Prod.mk.injEq] at hEq
      rcases h with h | h
      · exact h (hEq.1 ▸ nodeAt_mem G hj)
      · exact h (hEq.2 ▸ nodeAt_mem G hi)
    rw [z1, z2, add_zero]
  · rw [if_neg hcond]

/-- Entrywise description of the raw COO adjacency: `1` at each ordered pair
of distinct adjacent labels, `2` on the diagonal at a self-loop (the two
index-list halves both hit `(a, a)` and `scipy` sums duplicates), `0`
elsewhere. -/
theorem rawAdj_eq (G : NXGraph) (hnodup : G.nodes.Nodup)
    (hsymm : ∀ u ∈ G.nodes, ∀ v ∈ G.nodes, G.adj u v = G.adj v u)
    {a b : ℕ} (ha : a ∈ G.nodes) (hb : b ∈ G.nodes) :
    rawAdj G a b =
      if a = b then (if G.adj a a then 2 else 0)
      else (if G.adj a b then 1 else 0) := by
  obtain ⟨hpa, hga⟩ := indexOf_nodeAt G ha
  obtain ⟨hpb, hgb⟩ := indexOf_nodeAt G hb
  by_cases hab : a = b
  · subst hab
    rw [if_pos rfl, rawAdj]
    rw [Finset.sum_eq_single_of_mem (List.indexOf a G.nodes, List.indexOf a G.nodes)
      (Finset.mem_product.mpr ⟨Finset.mem_range.mpr hpa, Finset.mem_range.mpr hpa⟩)]
    · simp only [hga, le_refl, true_and, Prod.mk.injEq, and_self, if_true]
      by_cases hadj : G.adj a a = true
      · rw [if_pos hadj, if_pos hadj]
        norm_num
      · rw [if_neg hadj, if_neg (by simpa using hadj)]
    · rintro ⟨i, j⟩ hp hpne
      simp only [Finset.mem_product, Finset.mem_range] at hp
      obtain ⟨hi, hj⟩ := hp
      by_cases hcond : i ≤ j ∧ G.adj (nodeAt G i) (nodeAt G j) = true
      · rw [if_pos hcond]
        have z1 : (if (nodeAt G i, nodeAt G j) = (a, a) then (1 : ℚ) else 0) = 0 := by
          rw [if_neg]
          intro hEq
          rw [Prod.mk.injEq] at hEq
          have e1 : i = List.indexOf a G.nodes :=
            nodeAt_inj G hnodup hi hpa (by rw [hEq.1, hga])
          have e2 : j = List.indexOf a G.nodes :=
            nodeAt_inj G hnodup hj hpa (by rw [hEq.2, hga])
          exact hpne (by rw [e1, e2])
        have z2 : (if (nodeAt G j, nodeAt G i) = (a, a) then (1 : ℚ) else 0) = 0 := by
          rw [if_neg]
          intro hEq
          rw [Prod.mk.injEq] at hEq
          have e1 : j = List.indexOf a G.nodes :=
            nodeAt_inj G hnodup hj hpa (by rw [hEq.1, hga])
          have e2 : i = List.indexOf a G.nodes :=
            nodeAt_inj G hnodup hi hpa (by rw [hEq.2, hga])
          exact hpne (by rw [e1, e2])
        rw [z1, z2, add_zero]
      · rw [if_neg hcond]
  · rw [if_neg hab]
    have hpab : List.indexOf a G.nodes ≠ List.indexOf b G.nodes := by
      intro h
      exact hab (by rw [← hga, h, hgb])
    rcases le_or_lt (List.indexOf a G.nodes) (List.indexOf b G.nodes) with hle | hlt
    · -- position of a comes first: the edge cell is the pair (pa, pb)
      rw [rawAdj]
      rw [Finset.sum_eq_single_of_mem (List.indexOf a G.nodes, List.indexOf b G.nodes)
        (Finset.mem_product.mpr ⟨Finset.mem_range.mpr hpa, Finset.mem_range.mpr hpb⟩)]
      · have hba : ¬b = a := fun h => hab h.symm
        by_cases hadj : G.adj a b = true <;>
          simp [hga, hgb, hle, hadj, hab, hba]
      · rintro ⟨i, j⟩ hp hpne
        simp only [Finset.mem_product, Finset.mem_range] at hp
        obtain ⟨hi, hj⟩ := hp
        by_cases hcond : i ≤ j ∧ G.adj (nodeAt G i) (nodeAt G j) = true
        · rw [if_pos hcond]
          have z1 : (if (nodeAt G i, nodeAt G j) = (a, b) then (1 : ℚ) else 0) = 0 := by
            rw [if_neg]
            intro hEq
            rw [Prod.mk.injEq] at hEq
            have e1 : i = List.indexOf a G.nodes :=
              nodeAt_inj G hnodup hi hpa (by rw [hEq.1, hga])
            have e2 : j = List.indexOf b G.nodes :=
              nodeAt_inj G hnodup hj hpb (by rw [hEq.2, hgb])
            exact hpne (by rw [e1, e2])
          have z2 : (if (nodeAt G j, nodeAt G i) = (a, b) then (1 : ℚ) else 0) = 0 := by
            rw [if_neg]
            intro hEq
            rw [Prod.mk.injEq] at hEq
            have e1 : j = List.indexOf a G.nodes :=
              nodeAt_inj G hnodup hj hpa (by rw [hEq.1, hga])
            have e2 : i = List.indexOf b G.nodes :=
              nodeAt_inj G hnodup hi hpb (by rw [hEq.2, hgb])
            have : List.indexOf b G.nodes ≤ List.indexOf a G.nodes := by
              rw [← e1, ← e2]; exact hcond.1
            exact hpab (Nat.le_antisymm hle this)
          rw [z1, z2, add_zero]
        · rw [if_neg hcond]
    · -- position of b comes first: the edge cell is the pair (pb, pa)
      rw [rawAdj]
      rw [Finset.sum_eq_single_of_mem (List.indexOf b G.nodes, List.indexOf a G.nodes)
        (Finset.mem_product.mpr ⟨Finset.mem_range.mpr hpb, Finset.mem_range.mpr hpa⟩)]
      · have hba : ¬b = a := fun h => hab h.symm
        have hsab : G.adj b a = G.adj a b := hsymm b hb a ha
        by_cases hadj : G.adj a b = true <;>
          simp [hga, hgb, Nat.le_of_lt hlt, hsab, hadj, hab, hba]
      · rintro ⟨i, j⟩ hp hpne
        simp only [Finset.mem_product, Finset.mem_range] at hp
        obtain ⟨hi, hj⟩ := hp
        by_cases hcond : i ≤ j ∧ G.adj (nodeAt G i) (nodeAt G j) = true
        · rw [if_pos hcond]
          have z1 : (if (nodeAt G i, nodeAt G j) = (a, b) then (1 : ℚ) else 0) = 0 := by
            rw [if_neg]
            intro hEq
            rw [Prod.mk.injEq] at hEq
            have e1 : i = List.indexOf a G.nodes :=
              nodeAt_inj G hnodup hi hpa (by rw [hEq.1, hga])
            have e2 : j = List.indexOf b G.nodes :=
              nodeAt_inj G hnodup hj hpb (by rw [hEq.2, hgb])
            have : List.indexOf a G.nodes ≤ List.indexOf b G.nodes := by
              rw [← e1, ← e2]; exact hcond.1
            exact absurd hlt (Nat.not_lt.mpr this)
          have z2 : (if (nodeAt G j, nodeAt G i) = (a, b) then (1 : ℚ) else 0) = 0 := by
            rw [if_neg]
            intro hEq
            rw [Prod.mk.injEq] at hEq
            have e1 : j = List.indexOf a G.nodes :=
              nodeAt_inj G hnodup hj hpa (by rw [hEq.1, hga])
            have e2 : i = List.indexOf b G.nodes :=
              nodeAt_inj G hnodup hi hpb (by rw [hEq.2, hgb])
            exact hpne (by rw [e1, e2])
          rw [z1, z2, add_zero]
        · rw [if_neg hcond]

/-! ## Claim theorems -/

/-- C1: for `order = 1` the Target Matrix Builder returns the normalized
adjacency `A` itself (no summation), and for every `order = k > 1` it
returns exactly `A¹ + A² + … + A^k`, computed by the running
`powered`/`sum` loop of `read_graph` (which `read_graph_target` is). -/
theorem read_graph_target_spec {n : ℕ} (A : Matrix (Fin n) (Fin n) ℚ) (k : ℤ)
    (hk : 1 < k) :
    read_graph_target A 1 = A ∧
      read_graph_target A k = ∑ i ∈ Finset.range k.toNat, A ^ (i + 1) := by
  constructor
  · rw [read_graph_target, if_neg (by omega)]
  · rw [read_graph_target, if_pos hk, targetLoop_spec]
    have h : (k - 1).toNat + 1 = k.toNat := by omega
    rw [h]

/-- Witness for C1 at the 2-node path and `k = 2`. -/
theorem read_graph_target_spec_witness :
    (1 : ℤ) < 2 ∧
      (read_graph_target (Matrix.of !![(0 : ℚ), 1; 1, 0]) 1 = Matrix.of !![(0 : ℚ), 1; 1, 0] ∧
        read_graph_target (Matrix.of !![(0 : ℚ), 1; 1, 0]) 2 =
          ∑ i ∈ Finset.range (2 : ℤ).toNat, Matrix.of !![(0 : ℚ), 1; 1, 0] ^ (i + 1)) :=
  ⟨by norm_num, read_graph_target_spec (Matrix.of !![(0 : ℚ), 1; 1, 0]) 2 (by norm_num)⟩

/-- C7 (counterexample): at `order = 0` the pipeline does not reject the
configuration — `read_graph` returns the normalized adjacency matrix of the
single-edge graph, exactly as it would for `order = 1`.  (`parameter_parser`
constrains `--order` only to be an `int`; `read_graph`'s `if order > 1` sends
every `order ≤ 1` to the `out_A = A` branch.) -/
theorem read_graph_order_zero_returns_matrix :
    read_graph [(0, 1)] 0 = some (Matrix.of !![(0 : ℚ), 1; 1, 0]) := by
  rw [read_graph, normalize_adjacency, if_pos (by decide)]
  rw [Option.map_some', Option.some.injEq]
  rw [read_graph_target, if_neg (by omega)]
  ext i j
  rw [Matrix.mul_diagonal]
  fin_cases i <;> fin_cases j <;>
    norm_num [rawM, rawAdj, nodeAt, fromEdgelist, nxNodesFrom, insertNode, degree,
      Finset.sum_product, Finset.sum_range_succ]

/-- C7 (amended): for every `order < 1` the Target Matrix Builder does not
reject; it falls into the `order ≤ 1` branch and returns `A` unchanged. -/
theorem read_graph_target_low_order {n : ℕ} (A : Matrix (Fin n) (Fin n) ℚ)
    (k : ℤ) (hk : k < 1) : read_graph_target A k = A := by
  rw [read_graph_target, if_neg (by omega)]

/-- Witness for the amended C7 at `order = -3`. -/
theorem read_graph_target_low_order_witness :
    (-3 : ℤ) < 1 ∧ read_graph_target (Matrix.of !![(2 : ℚ)]) (-3) = Matrix.of !![(2 : ℚ)] :=
  ⟨by norm_num, read_graph_target_low_order (Matrix.of !![(2 : ℚ)]) (-3) (by norm_num)⟩

/-- Under the guard of `normalize_adjacency`, the result is `some` of the
matrix whose `(a, b)` cell is the raw cell times the inverse degree of the
node at *position* `b` of the iteration order (`A.dot(degs)` with the
diagonal indexed by `ind = range(n)`). -/
theorem normalize_adjacency_entry (G : NXGraph)
    (h : (∀ v ∈ G.nodes, degree G v ≠ 0) ∧ (∀ v ∈ G.nodes, v < G.nodes.length)) :
    normalize_adjacency G = some (Matrix.of fun a b : Fin G.nodes.length =>
      rawAdj G a.val b.val * ((degree G (nodeAt G b.val) : ℚ))⁻¹) := by
  rw [normalize_adjacency, if_pos h]
  congr 1
  ext a b
  rw [Matrix.mul_diagonal]
  rfl

/-- The length of a filtered duplicate-free list with membership
`v ∈ l ↔ v < l.length` is the cardinality of the corresponding filtered
range. -/
theorem filter_length_eq (l : List ℕ) (hnodup : l.Nodup)
    (hmem : ∀ v, v ∈ l ↔ v < l.length) (p : ℕ → Bool) :
    ((l.filter p).length : ℚ) =
      ∑ c ∈ Finset.range l.length, (if p c then (1 : ℚ) else 0) := by
  have h1 : (l.filter p).toFinset.card = (l.filter p).length :=
    List.toFinset_card_of_nodup (hnodup.filter p)
  have h2 : (l.filter p).toFinset = (Finset.range l.length).filter (fun c => p c = true) := by
    ext x
    simp only [List.mem_toFinset, List.mem_filter, Finset.mem_filter, Finset.mem_range]
    rw [hmem]
  have h3 : ((Finset.range l.length).filter (fun c => p c = true)).card =
      ∑ c ∈ Finset.range l.length, (if p c then 1 else 0) := Finset.card_filter _ _
  rw [← h1, h2, h3]
  push_cast
  rfl

/-- C3: for a graph with duplicate-free, zero-indexed, contiguous node IDs
(and positive degrees so normalization succeeds), `normalize_adjacency`
produces an `n × n` matrix (`n = len(graph.nodes())`, the type of the
result), and every column `i` of the raw pre-normalization adjacency sums to
the degree of node `i`. -/
theorem normalize_adjacency_shape_colsum (G : NXGraph)
    (hnodup : G.nodes.Nodup)
    (hmem1 : ∀ v ∈ G.nodes, v < G.nodes.length)
    (hmem2 : ∀ k, k < G.nodes.length → k ∈ G.nodes)
    (hsymm : ∀ u ∈ G.nodes, ∀ v ∈ G.nodes, G.adj u v = G.adj v u)
    (hdeg : ∀ v ∈ G.nodes, degree G v ≠ 0) :
    (∃ M : Matrix (Fin G.nodes.length) (Fin G.nodes.length) ℚ,
        normalize_adjacency G = some M) ∧
      ∀ i ∈ G.nodes,
        ∑ c ∈ Finset.range G.nodes.length, rawAdj G c i = (degree G i : ℚ) := by
  have hmem : ∀ v, v ∈ G.nodes ↔ v < G.nodes.length := fun v => ⟨hmem1 v, hmem2 v⟩
  refine ⟨⟨_, normalize_adjacency_entry G ⟨hdeg, hmem1⟩⟩, ?_⟩
  intro i hi
  have hin : i < G.nodes.length := hmem1 i hi
  have hstep : ∀ c ∈ Finset.range G.nodes.length,
      rawAdj G c i = if c = i then (if G.adj c c then (2 : ℚ) else 0)
        else (if G.adj c i then (1 : ℚ) else 0) := by
    intro c hc
    exact rawAdj_eq G hnodup hsymm (hmem2 c (Finset.mem_range.mp hc)) hi
  rw [Finset.sum_congr rfl hstep, degree]
  push_cast
  rw [filter_length_eq G.nodes hnodup hmem (fun u => G.adj i u)]
  rw [← Finset.add_sum_erase _
      (fun c => if c = i then (if G.adj c c then (2 : ℚ) else 0)
        else (if G.adj c i then (1 : ℚ) else 0)) (Finset.mem_range.mpr hin),
    ← Finset.add_sum_erase _
      (fun c => if G.adj i c then (1 : ℚ) else 0) (Finset.mem_range.mpr hin)]
  have hsum : ∑ c ∈ (Finset.range G.nodes.length).erase i,
      (if c = i then (if G.adj c c then (2 : ℚ) else 0)
        else (if G.adj c i then (1 : ℚ) else 0)) =
      ∑ c ∈ (Finset.range G.nodes.length).erase i, (if G.adj i c then (1 : ℚ) else 0) := by
    refine Finset.sum_congr rfl (fun c hc => ?_)
    have hcmem : c ∈ G.nodes :=
      hmem2 c (Finset.mem_range.mp (Finset.mem_of_mem_erase hc))
    rw [if_neg (Finset.ne_of_mem_erase hc), hsymm c hcmem i hi]
  rw [hsum, if_pos rfl]
  split_ifs <;> ring

/-- Witness for C3 at the single-edge graph `0 — 1`. -/
theorem normalize_adjacency_shape_colsum_witness :
    ((fromEdgelist [(0, 1)]).nodes.Nodup ∧
      (∀ v ∈ (fromEdgelist [(0, 1)]).nodes, v < (fromEdgelist [(0, 1)]).nodes.length) ∧
      (∀ k, k < (fromEdgelist [(0, 1)]).nodes.length → k ∈ (fromEdgelist [(0, 1)]).nodes) ∧
      (∀ u ∈ (fromEdgelist [(0, 1)]).nodes, ∀ v ∈ (fromEdgelist [(0, 1)]).nodes,
        (fromEdgelist [(0, 1)]).adj u v = (fromEdgelist [(0, 1)]).adj v u) ∧
      (∀ v ∈ (fromEdgelist [(0, 1)]).nodes, degree (fromEdgelist [(0, 1)]) v ≠ 0)) ∧
    ((∃ M : Matrix (Fin (fromEdgelist [(0, 1)]).nodes.length)
        (Fin (fromEdgelist [(0, 1)]).nodes.length) ℚ,
        normalize_adjacency (fromEdgelist [(0, 1)]) = some M) ∧
      ∀ i ∈ (fromEdgelist [(0, 1)]).nodes,
        ∑ c ∈ Finset.range (fromEdgelist [(0, 1)]).nodes.length,
          rawAdj (fromEdgelist [(0, 1)]) c i = (degree (fromEdgelist [(0, 1)]) i : ℚ)) :=
  ⟨⟨by decide, by decide, by decide, by decide, by decide⟩,
    normalize_adjacency_shape_colsum (fromEdgelist [(0, 1)])
      (by decide) (by decide) (by decide) (by decide) (by decide)⟩

/-- C6: a node of degree zero makes `normalize_adjacency` raise: the list
comprehension `1.0/graph.degree(node)` (line 79) divides by zero before any
matrix is built, so the function fails (modelled by `none`) rather than
returning a matrix containing NaN or Inf. -/
theorem normalize_adjacency_degree_zero (G : NXGraph) (v : ℕ)
    (hv : v ∈ G.nodes) (hd : degree G v = 0) : normalize_adjacency G = none := by
  rw [normalize_adjacency, if_neg]
  rintro ⟨h1, h2⟩
  exact h1 v hv hd

/-- Witness for C6 at the one-node edgeless graph. -/
theorem normalize_adjacency_degree_zero_witness :
    (0 ∈ (NXGraph.mk [0] (fun _ _ => false)).nodes ∧
      degree (NXGraph.mk [0] (fun _ _ => false)) 0 = 0) ∧
    normalize_adjacency (NXGraph.mk [0] (fun _ _ => false)) = none :=
  ⟨⟨by decide, by decide⟩,
    normalize_adjacency_degree_zero (NXGraph.mk [0] (fun _ _ => false)) 0
      (by decide) (by decide)⟩

/-- C2 (failing input): on the graph of the edge list `[(0, 2), (1, 2)]` the
`networkx` node iteration order is `[0, 2, 1]`, so `A.dot(degs)` scales
column `j` of the raw adjacency by `1/degree(nodes()[j])`, not by
`1/degree(j)`.  Edge `(2, 1)` exists and `degree(1) = 1`, yet the returned
entry at `(2, 1)` is `1/2` (column 1 was scaled by `1/degree(2)`); likewise
entry `(0, 2)` is `1` although `degree(2) = 2`. -/
theorem normalize_adjacency_misaligned :
    normalize_adjacency (fromEdgelist [(0, 2), (1, 2)]) =
      some (Matrix.of !![(0 : ℚ), 0, 1; 0, 0, 1; 1, 1/2, 0]) ∧
    degree (fromEdgelist [(0, 2), (1, 2)]) 1 = 1 ∧
    degree (fromEdgelist [(0, 2), (1, 2)]) 2 = 2 := by
  refine ⟨?_, by decide, by decide⟩
  rw [normalize_adjacency, if_pos (by decide), Option.some.injEq]
  ext i j
  rw [Matrix.mul_diagonal]
  fin_cases i <;> fin_cases j <;>
    norm_num [rawM, rawAdj, nodeAt, fromEdgelist, nxNodesFrom, insertNode, degree,
      Finset.sum_product, Finset.sum_range_succ]

theorem mem_insertNode (l : List ℕ) (x y : ℕ) :
    y ∈ insertNode l x ↔ y ∈ l ∨ y = x := by
  rw [insertNode]
  split_ifs with h
  · constructor
    · exact Or.inl
    · rintro (hy | rfl)
      · exact hy
      · exact h
  · simp [List.mem_append]

theorem insertNode_nodup (l : List ℕ) (x : ℕ) (h : l.Nodup) :
    (insertNode l x).Nodup := by
  rw [insertNode]
  split_ifs with hx
  · exact h
  · simp [List.nodup_append, h, hx]

theorem nxNodesFrom_nodup (E : List (ℕ × ℕ)) : (nxNodesFrom E).Nodup := by
  rw [nxNodesFrom]
  suffices h : ∀ acc : List ℕ, acc.Nodup →
      (E.foldl (fun acc e => insertNode (insertNode acc e.1) e.2) acc).Nodup from
    h [] List.nodup_nil
  induction E with
  | nil => exact fun acc ha => ha
  | cons e t ih =>
    intro acc ha
    exact ih _ (insertNode_nodup _ _ (insertNode_nodup _ _ ha))

theorem mem_nxNodesFrom (E : List (ℕ × ℕ)) (a : ℕ) :
    a ∈ nxNodesFrom E ↔ ∃ e ∈ E, a = e.1 ∨ a = e.2 := by
  rw [nxNodesFrom]
  suffices h : ∀ acc : List ℕ,
      (a ∈ E.foldl (fun acc e => insertNode (insertNode acc e.1) e.2) acc ↔
        a ∈ acc ∨ ∃ e ∈ E, a = e.1 ∨ a = e.2) by
    rw [h []]
    simp
  induction E with
  | nil => simp
  | cons e t ih =>
    intro acc
    rw [List.foldl_cons, ih, mem_insertNode, mem_insertNode]
    constructor
    · rintro (((ha | ha) | ha) | ⟨f, hf, hfa⟩)
      · exact Or.inl ha
      · exact Or.inr ⟨e, List.mem_cons_self e t, Or.inl ha⟩
      · exact Or.inr ⟨e, List.mem_cons_self e t, Or.inr ha⟩
      · exact Or.inr ⟨f, List.mem_cons_of_mem e hf, hfa⟩
    · rintro (ha | ⟨f, hf, hfa⟩)
      · exact Or.inl (Or.inl (Or.inl ha))
      · rcases List.mem_cons.mp hf with rfl | hft
        · rcases hfa with ha | ha
          · exact Or.inl (Or.inl (Or.inr ha))
          · exact Or.inl (Or.inr ha)
        · exact Or.inr ⟨f, hft, hfa⟩

theorem fromEdgelist_adj (E : List (ℕ × ℕ)) (a b : ℕ) :
    (fromEdgelist E).adj a b = true ↔ (a, b) ∈ E ∨ (b, a) ∈ E := by
  simp [fromEdgelist]

theorem fromEdgelist_symm (E : List (ℕ × ℕ)) (u v : ℕ) :
    (fromEdgelist E).adj u v = (fromEdgelist E).adj v u := by
  rw [fromEdgelist]
  exact decide_eq_decide.mpr or_comm

/-- C10: `read_graph` builds an undirected simple graph from the edge list,
so however many times an edge row or its reverse appears, each unique
undirected edge `{a, b}` contributes exactly weight `1` at cell `(a, b)` and
exactly `1` at cell `(b, a)` of the raw adjacency matrix, and absent edges
contribute `0`. -/
theorem fromEdgelist_rawAdj (E : List (ℕ × ℕ)) (a b : ℕ) (hab : a ≠ b) :
    rawAdj (fromEdgelist E) a b = (if (a, b) ∈ E ∨ (b, a) ∈ E then 1 else 0) ∧
    rawAdj (fromEdgelist E) b a = (if (a, b) ∈ E ∨ (b, a) ∈ E then 1 else 0) := by
  have key : ∀ x y : ℕ, x ≠ y →
      rawAdj (fromEdgelist E) x y = (if (x, y) ∈ E ∨ (y, x) ∈ E then 1 else 0) := by
    intro x y hxy
    by_cases hx : x ∈ (fromEdgelist E).nodes
    · by_cases hy : y ∈ (fromEdgelist E).nodes
      · rw [rawAdj_eq (fromEdgelist E) (nxNodesFrom_nodup E)
          (fun u _ v _ => fromEdgelist_symm E u v) hx hy, if_neg hxy]
        by_cases hadj : (x, y) ∈ E ∨ (y, x) ∈ E
        · rw [if_pos ((fromEdgelist_adj E x y).mpr hadj), if_pos hadj]
        · rw [if_neg (fun h => hadj ((fromEdgelist_adj E x y).mp h)), if_neg hadj]
      · rw [rawAdj_zero (fromEdgelist E) (Or.inr hy), if_neg]
        rintro (h | h)
        · exact hy ((mem_nxNodesFrom E y).mpr ⟨(x, y), h, Or.inr rfl⟩)
        · exact hy ((mem_nxNodesFrom E y).mpr ⟨(y, x), h, Or.inl rfl⟩)
    · rw [rawAdj_zero (fromEdgelist E) (Or.inl hx), if_neg]
      rintro (h | h)
      · exact hx ((mem_nxNodesFrom E x).mpr ⟨(x, y), h, Or.inl rfl⟩)
      · exact hx ((mem_nxNodesFrom E x).mpr ⟨(y, x), h, Or.inr rfl⟩)
  refine ⟨key a b hab, ?_⟩
  rw [key b a hab.symm]
  rcases Classical.em ((a, b) ∈ E ∨ (b, a) ∈ E) with h | h
  · rw [if_pos (or_comm.mp h), if_pos h]
  · rw [if_neg (fun hc => h (or_comm.mp hc)), if_neg h]

/-- Witness for C10: the edge list `[(0,1), (1,0), (0,1)]` still yields raw
weight `1` at `(0, 1)` and at `(1, 0)`. -/
theorem fromEdgelist_rawAdj_witness :
    (0 : ℕ) ≠ 1 ∧
      (rawAdj (fromEdgelist [(0, 1), (1, 0), (0, 1)]) 0 1 =
        (if ((0 : ℕ), (1 : ℕ)) ∈ [(0, 1), (1, 0), (0, 1)] ∨
            ((1 : ℕ), (0 : ℕ)) ∈ [(0, 1), (1, 0), (0, 1)] then 1 else 0) ∧
        rawAdj (fromEdgelist [(0, 1), (1, 0), (0, 1)]) 1 0 =
        (if ((0 : ℕ), (1 : ℕ)) ∈ [(0, 1), (1, 0), (0, 1)] ∨
            ((1 : ℕ), (0 : ℕ)) ∈ [(0, 1), (1, 0), (0, 1)] then 1 else 0)) :=
  ⟨by decide, fromEdgelist_rawAdj [(0, 1), (1, 0), (0, 1)] 0 1 (by decide)⟩

/-! ## Lemmas about Python `max` and COO duplicate counting -/

theorem le_foldl_max (l : List ℤ) : ∀ a : ℤ, a ≤ l.foldl max a := by
  induction l with
  | nil => intro a; exact le_refl a
  | cons c t ih => intro a; exact le_trans (le_max_left a c) (ih (max a c))

theorem mem_le_foldl_max (l : List ℤ) : ∀ (a x : ℤ), x ∈ l → x ≤ l.foldl max a := by
  induction l with
  | nil => intro a x hx; cases hx
  | cons c t ih =>
    intro a x hx
    rcases List.mem_cons.mp hx with rfl | hxt
    · exact le_trans (le_max_right a x) (le_foldl_max t (max a x))
    · exact ih (max a c) x hxt

theorem foldl_max_mem (l : List ℤ) : ∀ a : ℤ, l.foldl max a = a ∨ l.foldl max a ∈ l := by
  induction l with
  | nil => intro a; exact Or.inl rfl
  | cons c t ih =>
    intro a
    rcases ih (max a c) with h | h
    · rcases max_choice a c with hm | hm
      · exact Or.inl (by rw [List.foldl_cons, h, hm])
      · refine Or.inr ?_
        rw [List.foldl_cons, h, hm]
        exact List.mem_cons_self c t
    · exact Or.inr (List.mem_cons_of_mem c h)

theorem listMax_mem (l : List ℤ) (h : l ≠ []) : listMax l ∈ l := by
  rw [listMax]
  rcases foldl_max_mem l (l.headD 0) with h1 | h1
  · rw [h1]
    cases l with
    | nil => exact absurd rfl h
    | cons c t => exact List.mem_cons_self c t
  · exact h1

theorem le_listMax (l : List ℤ) (x : ℤ) (hx : x ∈ l) : x ≤ listMax l :=
  mem_le_foldl_max l _ x hx

/-- `max` over per-node padded maxima (line 133) is the `0`-floored maximum
of the flattened feature list. -/
theorem listMax_padded_flat (m : List (String × List FVal)) (hm : m ≠ []) :
    listMax (m.map (fun kv => listMax (kv.2.map FVal.toInt ++ [0]))) =
      (m.flatMap (fun kv => kv.2.map FVal.toInt)).foldl max 0 := by
  apply le_antisymm
  · have hmm : m.map (fun kv => listMax (kv.2.map FVal.toInt ++ [0])) ≠ [] := by
      simpa using hm
    obtain ⟨kv, hkv, hg⟩ := List.mem_map.mp (listMax_mem _ hmm)
    rw [← hg]
    have h2 : listMax (kv.2.map FVal.toInt ++ [0]) ∈ kv.2.map FVal.toInt ++ [0] :=
      listMax_mem _ (by simp)
    rcases List.mem_append.mp h2 with h3 | h3
    · exact mem_le_foldl_max _ 0 _ (List.mem_flatMap.mpr ⟨kv, hkv, h3⟩)
    · rw [List.mem_singleton.mp h3]
      exact le_foldl_max _ 0
  · rcases foldl_max_mem (m.flatMap fun kv => kv.2.map FVal.toInt) 0 with h1 | h1
    · rw [h1]
      obtain ⟨kv, hkv⟩ : ∃ kv, kv ∈ m := by
        cases m with
        | nil => exact absurd rfl hm
        | cons c t => exact ⟨c, List.mem_cons_self c t⟩
      have h2 : (0 : ℤ) ≤ listMax (kv.2.map FVal.toInt ++ [0]) :=
        le_listMax _ 0 (by simp)
      exact le_trans h2 (le_listMax _ _
        (List.mem_map_of_mem (fun kv => listMax (kv.2.map FVal.toInt ++ [0])) hkv))
    · obtain ⟨kv, hkv, h2⟩ := List.mem_flatMap.mp h1
      have h3 : (m.flatMap fun kv => kv.2.map FVal.toInt).foldl max 0 ≤
          listMax (kv.2.map FVal.toInt ++ [0]) :=
        le_listMax _ _ (List.mem_append.mpr (Or.inl h2))
      exact le_trans h3 (le_listMax _ _
        (List.mem_map_of_mem (fun kv => listMax (kv.2.map FVal.toInt ++ [0])) hkv))

theorem count_map_pair (l : List FVal) (k f c : ℤ) :
    (l.map (fun v => (v.toInt, k))).count (f, c) =
      if k = c then (l.map FVal.toInt).count f else 0 := by
  induction l with
  | nil => simp
  | cons v t ih =>
    simp only [List.map_cons, List.count_cons, ih, Prod.mk.injEq, beq_iff_eq]
    split_ifs <;> simp_all

theorem count_sparsePairs (m : List (String × List FVal))
    (hknodup : (m.map (fun kv => keyInt kv.1)).Nodup)
    (hvnodup : ∀ kv ∈ m, (kv.2.map FVal.toInt).Nodup) (f c : ℤ) :
    (sparsePairs m).count (f, c) =
      if ∃ kv ∈ m, keyInt kv.1 = c ∧ f ∈ kv.2.map FVal.toInt then 1 else 0 := by
  induction m with
  | nil => simp [sparsePairs]
  | cons kv t ih =>
    have hkn : (keyInt kv.1 :: t.map (fun kv => keyInt kv.1)).Nodup := by
      simpa using hknodup
    have hknodup' : (t.map (fun kv => keyInt kv.1)).Nodup := (List.nodup_cons.mp hkn).2
    have hvnodup' : ∀ kv' ∈ t, (kv'.2.map FVal.toInt).Nodup :=
      fun kv' h => hvnodup kv' (List.mem_cons_of_mem kv h)
    have hsplit : sparsePairs (kv :: t) =
        (kv.2.map fun v => (v.toInt, keyInt kv.1)) ++ sparsePairs t := by
      rw [sparsePairs, List.flatMap_cons]
      rfl
    rw [hsplit, List.count_append, count_map_pair, ih hknodup' hvnodup']
    by_cases hk : keyInt kv.1 = c
    · rw [if_pos hk]
      have hnot : ¬∃ kv' ∈ t, keyInt kv'.1 = c ∧ f ∈ kv'.2.map FVal.toInt := by
        rintro ⟨kv', hkv', hc', hf'⟩
        apply (List.nodup_cons.mp hkn).1
        rw [hk, ← hc']
        exact List.mem_map_of_mem (fun kv => keyInt kv.1) hkv'
      rw [if_neg hnot, add_zero]
      by_cases hf : f ∈ kv.2.map FVal.toInt
      · rw [List.count_eq_one_of_mem (hvnodup kv (List.mem_cons_self kv t)) hf,
          if_pos ⟨kv, List.mem_cons_self kv t, hk, hf⟩]
      · rw [List.count_eq_zero_of_not_mem hf, if_neg]
        rintro ⟨kv', hkv', hc', hf'⟩
        rcases List.mem_cons.mp hkv' with rfl | hkt
        · exact hf hf'
        · exact hnot ⟨kv', hkt, hc', hf'⟩
    · rw [if_neg hk, zero_add]
      have hiff : (∃ kv' ∈ kv :: t, keyInt kv'.1 = c ∧ f ∈ kv'.2.map FVal.toInt) ↔
          (∃ kv' ∈ t, keyInt kv'.1 = c ∧ f ∈ kv'.2.map FVal.toInt) := by
        constructor
        · rintro ⟨kv', hkv', hp⟩
          rcases List.mem_cons.mp hkv' with rfl | h
          · exact absurd hp.1 hk
          · exact ⟨kv', h, hp⟩
        · rintro ⟨kv', h, hp⟩
          exact ⟨kv', List.mem_cons_of_mem kv h, hp⟩
      simp only [hiff]

/-- C4: for a well-formed sparse feature mapping (non-empty; integer keys and
feature indices, non-negative; keys distinct as integers; no repeated feature
index per node) `read_sparse_features` returns the binary indicator matrix of
shape `(feature_count, node_count)` with `feature_count` = (maximum listed
feature index, floored at 0) + 1 and `node_count` = (maximum node ID) + 1,
with entry 1 exactly at `(f, n)` for each listed feature `f` of node `n` and
0 elsewhere; in particular the mapping `{"0": [1, 3], "2": [0]}` yields
`feature_count = 4`, `node_count = 3` and exactly 3 non-zero entries. -/
theorem read_sparse_features_spec (m : List (String × List FVal))
    (hne : m ≠ [])
    (hkeys : ∀ kv ∈ m, ∃ z, pyInt kv.1 = some z ∧ 0 ≤ z)
    (hvals : ∀ kv ∈ m, ∀ v ∈ kv.2, v.isInt = true ∧ 0 ≤ v.toInt)
    (hknodup : (m.map (fun kv => keyInt kv.1)).Nodup)
    (hvnodup : ∀ kv ∈ m, (kv.2.map FVal.toInt).Nodup) :
    (∃ F, read_sparse_features m = some F ∧
      F.node_count = listMax (m.map (fun kv => keyInt kv.1)) + 1 ∧
      F.feature_count = (m.flatMap (fun kv => kv.2.map FVal.toInt)).foldl max 0 + 1 ∧
      (∀ f c : ℤ, F.entry f c =
        if ∃ kv ∈ m, keyInt kv.1 = c ∧ f ∈ kv.2.map FVal.toInt then 1 else 0)) ∧
    ((read_sparse_features [("0", [FVal.fint 1, FVal.fint 3]), ("2", [FVal.fint 0])]).map
        (fun F => (F.feature_count, F.node_count)) = some (4, 3) ∧
      (read_sparse_features [("0", [FVal.fint 1, FVal.fint 3]), ("2", [FVal.fint 0])]).elim
        False (fun F => ((Finset.range 4 ×ˢ Finset.range 3).filter
          (fun p => F.entry p.1 p.2 ≠ 0)).card = 3)) := by
  have hvals' : ∀ kv ∈ m, ∀ v ∈ kv.2, ∃ z, v.pyToInt = some z ∧ 0 ≤ z := by
    intro kv hkv v hv
    obtain ⟨hisInt, hnn⟩ := hvals kv hkv v hv
    cases v with
    | fint z => exact ⟨z, rfl, by simpa [FVal.toInt, FVal.pyToInt] using hnn⟩
    | ffloat q => simp [FVal.isInt] at hisInt
    | fstr s => simp [FVal.isInt] at hisInt
  constructor
  · refine ⟨{ feature_count := listMax (m.map (fun kv => listMax (kv.2.map FVal.toInt ++ [0]))) + 1
              node_count := listMax (m.map (fun kv => keyInt kv.1)) + 1
              entry := fun f c => ((sparsePairs m).count (f, c) : ℚ) }, ?_, rfl, ?_, ?_⟩
    · rw [read_sparse_features, if_pos ⟨hne, hkeys, hvals'⟩]
    · show listMax (m.map (fun kv => listMax (kv.2.map FVal.toInt ++ [0]))) + 1 = _
      rw [listMax_padded_flat m hne]
    · intro f c
      show ((sparsePairs m).count (f, c) : ℚ) = _
      rw [count_sparsePairs m hknodup hvnodup f c]
      split_ifs <;> norm_num
  · have hsome : read_sparse_features [("0", [FVal.fint 1, FVal.fint 3]), ("2", [FVal.fint 0])] =
        some { feature_count := 4, node_count := 3,
               entry := fun f c =>
                 ((sparsePairs [("0", [FVal.fint 1, FVal.fint 3]),
                   ("2", [FVal.fint 0])]).count (f, c) : ℚ) } := by
      rw [read_sparse_features, if_pos (by decide), Option.some.injEq, SparseFeat.mk.injEq]
      exact ⟨by decide, by decide, rfl⟩
    rw [hsome]
    refine ⟨rfl, ?_⟩
    have hiff : ∀ p ∈ Finset.range 4 ×ˢ Finset.range 3,
        (((sparsePairs [("0", [FVal.fint 1, FVal.fint 3]), ("2", [FVal.fint 0])]).count
            ((p.1 : ℤ), (p.2 : ℤ)) : ℚ) ≠ 0) ↔
          ((sparsePairs [("0", [FVal.fint 1, FVal.fint 3]), ("2", [FVal.fint 0])]).count
            ((p.1 : ℤ), (p.2 : ℤ)) ≠ 0) :=
      fun p _ => Nat.cast_ne_zero
    show ((Finset.range 4 ×ˢ Finset.range 3).filter (fun p : ℕ × ℕ =>
      ((sparsePairs [("0", [FVal.fint 1, FVal.fint 3]), ("2", [FVal.fint 0])]).count
        ((p.1 : ℤ), (p.2 : ℤ)) : ℚ) ≠ 0)).card = 3
    rw [Finset.filter_congr hiff]
    decide

/-- Witness for C4 at the spec's canonical mapping `{"0": [1, 3], "2": [0]}`. -/
theorem read_sparse_features_spec_witness :
    ([("0", [FVal.fint 1, FVal.fint 3]), ("2", [FVal.fint 0])] ≠
        ([] : List (String × List FVal)) ∧
      (∀ kv ∈ [("0", [FVal.fint 1, FVal.fint 3]), ("2", [FVal.fint 0])],
        ∃ z, pyInt kv.1 = some z ∧ 0 ≤ z) ∧
      (∀ kv ∈ [("0", [FVal.fint 1, FVal.fint 3]), ("2", [FVal.fint 0])],
        ∀ v ∈ kv.2, v.isInt = true ∧ 0 ≤ v.toInt) ∧
      ([("0", [FVal.fint 1, FVal.fint 3]), ("2", [FVal.fint 0])].map
        (fun kv => keyInt kv.1)).Nodup ∧
      (∀ kv ∈ [("0", [FVal.fint 1, FVal.fint 3]), ("2", [FVal.fint 0])],
        (kv.2.map FVal.toInt).Nodup)) ∧
    (∃ F, read_sparse_features [("0", [FVal.fint 1, FVal.fint 3]), ("2", [FVal.fint 0])] =
        some F ∧
      F.node_count = listMax ([("0", [FVal.fint 1, FVal.fint 3]), ("2", [FVal.fint 0])].map
        (fun kv => keyInt kv.1)) + 1 ∧
      F.feature_count = ([("0", [FVal.fint 1, FVal.fint 3]), ("2", [FVal.fint 0])].flatMap
        (fun kv => kv.2.map FVal.toInt)).foldl max 0 + 1 ∧
      (∀ f c : ℤ, F.entry f c =
        if ∃ kv ∈ [("0", [FVal.fint 1, FVal.fint 3]), ("2", [FVal.fint 0])],
            keyInt kv.1 = c ∧ f ∈ kv.2.map FVal.toInt then 1 else 0)) :=
  ⟨⟨by decide, by decide, by decide, by decide, by decide⟩,
    (read_sparse_features_spec [("0", [FVal.fint 1, FVal.fint 3]), ("2", [FVal.fint 0])]
      (by decide) (by decide) (by decide) (by decide) (by decide)).1⟩

/-- C8 (counterexample): the non-integer feature index `1.5` in the mapping
`{"0": [1.5]}` does not make `read_sparse_features` raise.  `int(1.5)`
(line 132) truncates to `1`, giving `feature_count = 2`, and `numpy`'s
unsafe cast in the COO constructor truncates the raw index `1.5` to `1` as
well, so a `2 × 1` matrix with entry `1.0` at `(1, 0)` is returned. -/
theorem read_sparse_features_float_index_returns_matrix :
    (read_sparse_features [("0", [FVal.ffloat (3 / 2)])]).map
      (fun F => (F.feature_count, F.node_count, F.entry 1 0)) =
      some (2, 1, (1 : ℚ)) := by
  have htr : (FVal.ffloat (3 / 2)).pyToInt = some 1 := by
    have h1 : pyTrunc (3 / 2) = 1 := by
      rw [pyTrunc, if_pos (by norm_num), Int.floor_eq_iff]
      norm_num
    simp [FVal.pyToInt, h1]
  have hval : ∀ kv ∈ [("0", [FVal.ffloat (3 / 2)])], ∀ v ∈ kv.2,
      ∃ z, v.pyToInt = some z ∧ 0 ≤ z := by
    intro kv hkv v hv
    rw [List.mem_singleton] at hkv
    subst hkv
    rw [List.mem_singleton] at hv
    subst hv
    exact ⟨1, htr, by norm_num⟩
  have htoInt : (FVal.ffloat (3 / 2)).toInt = 1 := by
    rw [FVal.toInt, htr]
    rfl
  rw [read_sparse_features, if_pos ⟨by decide, by decide, hval⟩, Option.map_some',
    Option.some.injEq]
  refine Prod.ext ?_ (Prod.ext ?_ ?_)
  · show listMax [listMax ([(FVal.ffloat (3 / 2)).toInt] ++ [0])] + 1 = 2
    rw [htoInt]
    decide
  · decide
  · show ((sparsePairs [("0", [FVal.ffloat (3 / 2)])]).count (1, 0) : ℚ) = 1
    have hp : sparsePairs [("0", [FVal.ffloat (3 / 2)])] =
        [((FVal.ffloat (3 / 2)).toInt, keyInt "0")] := rfl
    have hk : keyInt "0" = 0 := by decide
    have hc : List.count ((1 : ℤ), (0 : ℤ)) [((1 : ℤ), (0 : ℤ))] = 1 := by decide
    rw [hp, htoInt, hk, hc]
    norm_num

/-- C8 (amended): `read_sparse_features` fails with no matrix produced when
some node key is not an integer literal (`int(k)`, lines 128/130) or some
feature value is a *string* that is not an integer literal (`int(fet)`,
line 132).  Float feature values are truncated, not rejected. -/
theorem read_sparse_features_malformed (m : List (String × List FVal))
    (h : (∃ kv ∈ m, pyInt kv.1 = none) ∨ (∃ kv ∈ m, ∃ v ∈ kv.2, v.pyToInt = none)) :
    read_sparse_features m = none := by
  rw [read_sparse_features, if_neg]
  rintro ⟨hne, hkeys, hvals⟩
  rcases h with ⟨kv, hkv, hp⟩ | ⟨kv, hkv, v, hv, hp⟩
  · obtain ⟨z, hz, hz0⟩ := hkeys kv hkv
    rw [hp] at hz
    exact Option.noConfusion hz
  · obtain ⟨z, hz, hz0⟩ := hvals kv hkv v hv
    rw [hp] at hz
    exact Option.noConfusion hz

/-- Witness for the amended C8 at the mapping `{"0": ["z"]}` with a
non-integer-literal string feature value. -/
theorem read_sparse_features_malformed_witness :
    ((∃ kv ∈ [("0", [FVal.fstr "z"])], pyInt kv.1 = none) ∨
      (∃ kv ∈ [("0", [FVal.fstr "z"])], ∃ v ∈ kv.2, v.pyToInt = none)) ∧
    read_sparse_features [("0", [FVal.fstr "z"])] = none :=
  ⟨by decide, read_sparse_features_malformed [("0", [FVal.fstr "z"])] (by decide)⟩

/-- C5: for a rectangular dense feature table of `w ≥ 1` columns,
`read_features` discards the first (node-identifier) column and returns the
rest transposed: `w - 1` feature rows, each of length `node_count` (the
number of table rows), and cell `(f, c)` of the result is cell `f + 1` of
the `c`-th table row — columns ordered by the file's row order. -/
theorem read_features_spec (t : List (List ℚ)) (w : ℕ) (hne : t ≠ [])
    (_hw : 0 < w) (hrect : ∀ row ∈ t, row.length = w) :
    (read_features t).length = w - 1 ∧
      (∀ fr ∈ read_features t, fr.length = t.length) ∧
      ∀ f c : ℕ, f < w - 1 → c < t.length →
        ((read_features t).getD f []).getD c 0 = (t.getD c []).getD (f + 1) 0 := by
  have hhead : ((t.map (fun row => row.drop 1)).headD []).length = w - 1 := by
    cases t with
    | nil => exact absurd rfl hne
    | cons r s =>
      simp only [List.map_cons, List.headD_cons, List.length_drop]
      rw [hrect r (List.mem_cons_self r s)]
  refine ⟨?_, ?_, ?_⟩
  · rw [read_features, npTranspose, List.length_map, List.length_range, hhead]
  · intro fr hfr
    rw [read_features, npTranspose] at hfr
    obtain ⟨f, hf, hfr'⟩ := List.mem_map.mp hfr
    rw [← hfr', List.length_map, List.length_map]
  · intro f c hf hc
    have hrow : (read_features t).getD f [] = t.map (fun row => (row.drop 1).getD f 0) := by
      rw [read_features, npTranspose]
      have hflt : f < ((t.map (fun row => row.drop 1)).headD []).length := by
        rw [hhead]; exact hf
      rw [List.getD_eq_getElem _ _ (by simpa using hflt), List.getElem_map,
        List.getElem_range]
      have : ∀ row : List ℚ, (row.drop 1).getD f 0 = row.getD (f + 1) 0 := by
        intro row
        rw [List.getD_eq_getElem?_getD, List.getD_eq_getElem?_getD,
          List.getElem?_drop, Nat.add_comm 1 f]
      simp only [List.map_map]
      rfl
    rw [hrow, List.getD_eq_getElem _ _ (by simpa using hc), List.getElem_map]
    rw [List.getD_eq_getElem?_getD, List.getD_eq_getElem?_getD, List.getElem?_drop,
      Nat.add_comm 1 f, ← List.getD_eq_getElem?_getD, ← List.getD_eq_getElem?_getD,
      List.getD_eq_getElem t _ hc]

/-- Witness for C5 at a two-row, three-column table. -/
theorem read_features_spec_witness :
    ([[(0 : ℚ), 10, 20], [1, 30, 40]] ≠ ([] : List (List ℚ)) ∧ 0 < 3 ∧
      (∀ row ∈ [[(0 : ℚ), 10, 20], [1, 30, 40]], row.length = 3)) ∧
    ((read_features [[(0 : ℚ), 10, 20], [1, 30, 40]]).length = 3 - 1 ∧
      (∀ fr ∈ read_features [[(0 : ℚ), 10, 20], [1, 30, 40]],
        fr.length = [[(0 : ℚ), 10, 20], [1, 30, 40]].length) ∧
      ∀ f c : ℕ, f < 3 - 1 → c < [[(0 : ℚ), 10, 20], [1, 30, 40]].length →
        ((read_features [[(0 : ℚ), 10, 20], [1, 30, 40]]).getD f []).getD c 0 =
          ([[(0 : ℚ), 10, 20], [1, 30, 40]].getD c []).getD (f + 1) 0) :=
  ⟨⟨by simp, by norm_num, by simp⟩,
    read_features_spec [[(0 : ℚ), 10, 20], [1, 30, 40]] 3 (by simp) (by norm_num) (by simp)⟩

/-- C9: with no command-line options, `parameter_parser` yields exactly the
declared defaults: dimensions 32, order 2, iterations 200, lambd 1000.0,
alpha 10⁻⁶, features "sparse", lower-control 10⁻¹⁵. -/
theorem parameter_parser_defaults_spec :
    parameter_parser_defaults.dimensions = 32 ∧
      parameter_parser_defaults.order = 2 ∧
      parameter_parser_defaults.iterations = 200 ∧
      parameter_parser_defaults.lambd = 1000 ∧
      parameter_parser_defaults.alpha = 1 / 1000000 ∧
      parameter_parser_defaults.features = "sparse" ∧
      parameter_parser_defaults.lower_control = 1 / 1000000000000000 := by
  refine ⟨rfl, rfl, rfl, rfl, ?_, rfl, ?_⟩ <;>
    norm_num [parameter_parser_defaults]

end TADW
